import Mathlib

/-!
Verification development for the clip-annotator repository.

The embedded definitions mirror the pure/state-transforming parts of
`clip_annotator/utils.py`, `clip_annotator/labeler.py`,
`clip_annotator/matcher.py` and `clip_annotator/main.py`:

* label-set algebra: `safe_add`, `safe_remove`, `safe_substitute`
  (`utils.py` lines 8-48; `main.py` has the near-identical
  `safe_add_label`, `safe_remove_label`, `safe_edit_label`);
* resume-index computation: `labelerGetStartIndex`
  (`labeler.py` `MainWindow.get_start_index`), `matcherGetStartIndex`
  (`matcher.py` `MainWindow.get_start_index`) and `mainGetStartIndex`
  (the module-level `get_start_index` of `main.py`);
* similarity classification: `classify_target_video`
  (`matcher.py` `MainWindow.classify_target_video`);
* load-time path validation: `labeler_load` and `matcher_load`
  (`load_annotations` in `labeler.py` / `matcher.py`), with the
  filesystem abstracted as a predicate `String → Bool`.

Python's builtin `sorted` (a stable sort) is embedded as
`List.insertionSort (· ≤ ·)`: over a linear order any two sorted lists
that are permutations of one another are equal, so the choice of sorting
algorithm is immaterial to the values produced.
-/

namespace ClipAnnotator

/-- One entry of a label document: the JSON 4-tuple
`[path, start_frame, end_frame, labels]`. -/
structure LabelEntry where
  path : String
  startFrame : Nat
  endFrame : Nat
  labels : List String
deriving DecidableEq, Repr, Inhabited

/-- A clip reference `(path, start_frame, end_frame)` as used by the
matcher document format. -/
structure ClipRef where
  path : String
  startFrame : Nat
  endFrame : Nat
deriving DecidableEq, Repr, Inhabited

/-- One entry of a match document: the JSON 5-tuple
`[query_clip, target_clips, target_clip_metadata, similar_targets,
dissimilar_targets]` (`matcher.py` `load_annotations` docstring). -/
structure MatchEntry where
  query : ClipRef
  targets : List ClipRef
  targetMetadata : List (List (String × String))
  similar : List Nat
  dissimilar : List Nat
deriving DecidableEq, Repr, Inhabited

/-- Embeds `utils.safe_add` (and `main.safe_add_label`): add an item to a
list if it is not already present, returning `sorted(items + [new_item])`,
else the list unchanged. -/
def safe_add {α : Type} [LinearOrder α] (items : List α) (newItem : α) : List α :=
  if newItem ∈ items then items
  else List.insertionSort (· ≤ ·) (items ++ [newItem])

/-- Embeds `utils.safe_remove`: `sorted([i for i in items if i != item])`. -/
def safe_remove {α : Type} [LinearOrder α] (items : List α) (item : α) : List α :=
  List.insertionSort (· ≤ ·) (items.filter (fun i => i ≠ item))

/-- Per-element substitution `new_item if i == old_item else i`. -/
def substFun {α : Type} [LinearOrder α] (oldItem newItem i : α) : α :=
  if i = oldItem then newItem else i

/-- Embeds `utils.safe_substitute` (and `main.safe_edit_label`):
`sorted([new_item if i == old_item else i for i in items])`. -/
def safe_substitute {α : Type} [LinearOrder α] (items : List α) (oldItem newItem : α) :
    List α :=
  List.insertionSort (· ≤ ·) (items.map (substFun oldItem newItem))

/-- Highest index at which the list holds `true`; `none` when no index
does. This embeds the expression `np.nonzero(is_annotated)[0][-1]`
(the last — hence largest — index whose entry is truthy), with `none`
playing the role of the guarding `not any(is_annotated)` branch. -/
def lastTrueIdx : List Bool → Option Nat
  | [] => none
  | b :: bs =>
    match lastTrueIdx bs with
    | some i => some (i + 1)
    | none => if b then some 0 else none

/-- Embeds `labeler.MainWindow.get_start_index`:
`is_annotated = [len(labels) > 0 for *_, labels in annotations]`;
returns 0 when none is annotated, else the last annotated index plus 1
(no clamping). -/
def labelerGetStartIndex (d : List LabelEntry) : Nat :=
  let isAnn := d.map (fun e => decide (0 < e.labels.length))
  match lastTrueIdx isAnn with
  | none => 0
  | some i => i + 1

/-- Embeds `matcher.MainWindow.get_start_index`: as the labeler variant
but an entry is annotated when `len(dissimilar) + len(similar) > 0`, and
the result is clamped by `min(index, len(annotations) - 1)`. -/
def matcherGetStartIndex (d : List MatchEntry) : Nat :=
  let isAnn := d.map (fun e => decide (0 < e.dissimilar.length + e.similar.length))
  match lastTrueIdx isAnn with
  | none => 0
  | some i => min (i + 1) (d.length - 1)

/-- Embeds the module-level `main.get_start_index`:
`is_annotated = [i for i, (*_, labels) in enumerate(annotations) if labels]`
is the list of annotated indices; the code then tests `any(is_annotated)`
— Python truthiness over ints, i.e. some index is nonzero — and returns
`is_annotated[-1] + 1` in that branch, 0 otherwise. -/
def mainGetStartIndex (d : List LabelEntry) : Nat :=
  let idxs := (d.enum.filter (fun p => decide (0 < p.2.labels.length))).map Prod.fst
  if idxs.any (fun i => decide (i ≠ 0)) then idxs.getLast?.getD 0 + 1
  else 0

/-- Embeds `matcher.MainWindow.classify_target_video` acting on the
current match entry: on a left click, toggle `target_ix` out of
`similar` if present, else add it to `similar` and remove it from
`dissimilar`; on a right click, symmetrically for `dissimilar`. -/
def classify_target_video (e : MatchEntry) (leftClick : Bool) (targetIx : Nat) :
    MatchEntry :=
  if leftClick then
    if targetIx ∈ e.similar then
      { e with similar := safe_remove e.similar targetIx }
    else
      { e with similar := safe_add e.similar targetIx,
               dissimilar := safe_remove e.dissimilar targetIx }
  else
    if targetIx ∈ e.dissimilar then
      { e with dissimilar := safe_remove e.dissimilar targetIx }
    else
      { e with dissimilar := safe_add e.dissimilar targetIx,
               similar := safe_remove e.similar targetIx }

/-- Embeds `labeler.MainWindow.load_annotations` with the filesystem
abstracted as the predicate `ex`: collect the set of referenced paths
(`set(...)` becomes `dedup`), keep those for which `ex` is false, and
fail with that whole list when it is non-empty, else accept the parsed
document unchanged. -/
def labeler_load (d : List LabelEntry) (ex : String → Bool) :
    Except (List String) (List LabelEntry) :=
  let allPaths := (d.map (fun e => e.path)).dedup
  let missing := allPaths.filter (fun p => !(ex p))
  if missing = [] then Except.ok d else Except.error missing

/-- Referenced paths of a match document: the paths of all target clips
(`sum([annotation[1] ...], [])`) followed by all query clips, as in
`matcher.MainWindow.load_annotations`. -/
def matcherRefPaths (m : List MatchEntry) : List String :=
  (((m.map (fun e => e.targets)).flatten ++ m.map (fun e => e.query)).map
    (fun c => c.path))

/-- Embeds `matcher.MainWindow.load_annotations` with the filesystem
abstracted as the predicate `ex`. -/
def matcher_load (m : List MatchEntry) (ex : String → Bool) :
    Except (List String) (List MatchEntry) :=
  let allPaths := (matcherRefPaths m).dedup
  let missing := allPaths.filter (fun p => !(ex p))
  if missing = [] then Except.ok m else Except.error missing

/-- Update the labels of the entry at position `i`, leaving the rest of
the document unchanged. This embeds the assignment
`self.annotations[self.current_index][3] = ...` used by `add_label` and
`remove_label` in `labeler.py`. -/
def updAt : List LabelEntry → Nat → (List String → List String) → List LabelEntry
  | [], _, _ => []
  | e :: es, 0, f => { e with labels := f e.labels } :: es
  | e :: es, i + 1, f => e :: updAt es i f

/-- Embeds `labeler.MainWindow.add_label`. -/
def doc_add (d : List LabelEntry) (i : Nat) (lab : String) : List LabelEntry :=
  updAt d i (fun L => safe_add L lab)

/-- Embeds `labeler.MainWindow.remove_label`. -/
def doc_remove (d : List LabelEntry) (i : Nat) (lab : String) : List LabelEntry :=
  updAt d i (fun L => safe_remove L lab)

/-- Embeds the confirmed branch of `labeler.MainWindow.delete_label`:
`safe_remove` applied to every entry of the document. -/
def doc_delete (d : List LabelEntry) (lab : String) : List LabelEntry :=
  d.map (fun e => { e with labels := safe_remove e.labels lab })

/-- Embeds the accepted branch of `labeler.MainWindow.edit_label`:
`safe_substitute` applied to every entry of the document. -/
def doc_edit (d : List LabelEntry) (oldLab newLab : String) : List LabelEntry :=
  d.map (fun e => { e with labels := safe_substitute e.labels oldLab newLab })

/-- The sort invariant of the spec: every label list of the document is
strictly sorted (hence duplicate-free). -/
def docSorted (d : List LabelEntry) : Prop :=
  ∀ e ∈ d, List.Sorted (· < ·) e.labels

instance (d : List LabelEntry) : Decidable (docSorted d) := by
  unfold docSorted; infer_instance

/-! ## Helper lemmas about the label-set algebra -/

theorem mem_safe_add {α : Type} [LinearOrder α] {l : List α} {x a : α} :
    a ∈ safe_add l x ↔ a ∈ l ∨ a = x := by
  unfold safe_add
  by_cases h : x ∈ l
  · simp only [if_pos h]
    exact ⟨Or.inl, fun h' => h'.elim id (fun e => e ▸ h)⟩
  · simp [if_neg h, List.mem_insertionSort]

theorem mem_safe_remove {α : Type} [LinearOrder α] {l : List α} {x a : α} :
    a ∈ safe_remove l x ↔ a ∈ l ∧ a ≠ x := by
  unfold safe_remove
  simp [List.mem_insertionSort, List.mem_filter]

theorem sorted_le_safe_remove {α : Type} [LinearOrder α] (l : List α) (x : α) :
    List.Sorted (· ≤ ·) (safe_remove l x) :=
  List.sorted_insertionSort _ _

theorem sorted_le_safe_substitute {α : Type} [LinearOrder α] (l : List α) (o n : α) :
    List.Sorted (· ≤ ·) (safe_substitute l o n) :=
  List.sorted_insertionSort _ _

theorem safe_add_eq_of_mem {α : Type} [LinearOrder α] {l : List α} {x : α}
    (h : x ∈ l) : safe_add l x = l := by
  unfold safe_add; exact if_pos h

theorem safe_add_perm {α : Type} [LinearOrder α] {l : List α} {x : α}
    (h : x ∉ l) : (safe_add l x).Perm (l ++ [x]) := by
  unfold safe_add
  rw [if_neg h]
  exact List.perm_insertionSort _ _

theorem sorted_le_safe_add_of_not_mem {α : Type} [LinearOrder α] {l : List α} {x : α}
    (h : x ∉ l) : List.Sorted (· ≤ ·) (safe_add l x) := by
  unfold safe_add
  rw [if_neg h]
  exact List.sorted_insertionSort _ _

/-- Strict sortedness is the conjunction of weak sortedness and
duplicate-freeness. -/
theorem sorted_lt_iff {α : Type} [LinearOrder α] {l : List α} :
    List.Sorted (· < ·) l ↔ List.Sorted (· ≤ ·) l ∧ l.Nodup := by
  constructor
  · exact fun h => ⟨h.imp le_of_lt, h.nodup⟩
  · rintro ⟨hle, hnd⟩
    exact (hle.and hnd).imp (fun hab => lt_of_le_of_ne hab.1 hab.2)

theorem sorted_lt_safe_add {α : Type} [LinearOrder α] {l : List α} {x : α}
    (h : List.Sorted (· < ·) l) : List.Sorted (· < ·) (safe_add l x) := by
  by_cases hx : x ∈ l
  · rwa [safe_add_eq_of_mem hx]
  · rw [sorted_lt_iff] at h ⊢
    refine ⟨sorted_le_safe_add_of_not_mem hx, ?_⟩
    refine (safe_add_perm hx).symm.nodup ?_
    rw [List.nodup_append]
    simpa using ⟨h.2, hx⟩

theorem sorted_lt_safe_remove {α : Type} [LinearOrder α] {l : List α} {x : α}
    (h : List.Sorted (· < ·) l) : List.Sorted (· < ·) (safe_remove l x) := by
  rw [sorted_lt_iff] at h ⊢
  refine ⟨sorted_le_safe_remove l x, ?_⟩
  exact (List.perm_insertionSort _ _).symm.nodup (h.2.filter _)

theorem safe_substitute_of_not_mem {α : Type} [LinearOrder α] {l : List α} {o n : α}
    (hs : List.Sorted (· ≤ ·) l) (ho : o ∉ l) : safe_substitute l o n = l := by
  unfold safe_substitute
  have hmap : l.map (substFun o n) = l := by
    have : ∀ a ∈ l, substFun o n a = id a := by
      intro a ha
      have : a ≠ o := fun e => ho (e ▸ ha)
      simp [substFun, this]
    rw [List.map_congr_left this, List.map_id]
  rw [hmap]
  exact hs.insertionSort_eq

theorem safe_substitute_of_eq {α : Type} [LinearOrder α] {l : List α} {o : α}
    (hs : List.Sorted (· ≤ ·) l) : safe_substitute l o o = l := by
  unfold safe_substitute
  have hmap : l.map (substFun o o) = l := by
    have : ∀ a ∈ l, substFun o o a = id a := by
      intro a _
      by_cases h : a = o <;> simp [substFun, h]
    rw [List.map_congr_left this, List.map_id]
  rw [hmap]
  exact hs.insertionSort_eq

theorem sorted_lt_safe_substitute {α : Type} [LinearOrder α] {l : List α} {o n : α}
    (h : List.Sorted (· < ·) l) (hc : o ∉ l ∨ o = n ∨ n ∉ l) :
    List.Sorted (· < ·) (safe_substitute l o n) := by
  rcases hc with ho | rfl | hn
  · rwa [safe_substitute_of_not_mem (h.imp le_of_lt) ho]
  · rwa [safe_substitute_of_eq (h.imp le_of_lt)]
  · rw [sorted_lt_iff] at h ⊢
    refine ⟨sorted_le_safe_substitute l o n, ?_⟩
    refine (List.perm_insertionSort _ _).symm.nodup ?_
    refine h.2.map_on ?_
    intro a ha b hb hab
    by_cases hao : a = o <;> by_cases hbo : b = o <;> simp [substFun, hao, hbo] at hab
    · exact hao.trans hbo.symm
    · exact absurd (hab ▸ hb) hn
    · exact absurd (hab ▸ ha) hn
    · exact hab

theorem safe_remove_idem {α : Type} [LinearOrder α] (l : List α) (x : α) :
    safe_remove (safe_remove l x) x = safe_remove l x := by
  have h1 : (safe_remove l x).filter (fun i => i ≠ x) = safe_remove l x := by
    rw [List.filter_eq_self]
    intro a ha
    simpa using (mem_safe_remove.mp ha).2
  have h2 : List.Sorted (· ≤ ·) (safe_remove l x) := sorted_le_safe_remove l x
  show List.insertionSort (· ≤ ·) ((safe_remove l x).filter (fun i => i ≠ x)) =
    safe_remove l x
  rw [h1]
  exact h2.insertionSort_eq

/-! ## Helper lemmas about `lastTrueIdx` -/

theorem lastTrueIdx_eq_none_iff (bs : List Bool) :
    lastTrueIdx bs = none ↔ ∀ b ∈ bs, b = false := by
  induction bs with
  | nil => simp [lastTrueIdx]
  | cons b bs ih =>
    unfold lastTrueIdx
    cases h : lastTrueIdx bs with
    | some i =>
      simp only [List.mem_cons]
      constructor
      · intro hc; exact absurd hc (by simp)
      · intro hall
        have : ∀ x ∈ bs, x = false := fun x hx => hall x (Or.inr hx)
        rw [ih.mpr this] at h
        exact absurd h (by simp)
    | none =>
      cases b with
      | true => simp
      | false => simpa using ih.mp h

theorem lastTrueIdx_eq_some (bs : List Bool) (j : Nat) (hj : j < bs.length)
    (ht : bs.get ⟨j, hj⟩ = true)
    (hafter : ∀ i (hi : i < bs.length), j < i → bs.get ⟨i, hi⟩ = false) :
    lastTrueIdx bs = some j := by
  induction bs generalizing j with
  | nil => exact absurd hj (by simp)
  | cons b bs ih =>
    cases j with
    | zero =>
      have hnone : lastTrueIdx bs = none := by
        rw [lastTrueIdx_eq_none_iff]
        intro x hx
        obtain ⟨⟨i, hi⟩, hget⟩ := List.mem_iff_get.mp hx
        have := hafter (i + 1) (by simpa using Nat.succ_lt_succ hi) (Nat.succ_pos i)
        rw [List.get_cons_succ] at this
        rw [← hget]; exact this
      have hb : b = true := by simpa using ht
      simp [lastTrueIdx, hnone, hb]
    | succ j' =>
      have hj' : j' < bs.length := Nat.lt_of_succ_lt_succ hj
      have ht' : bs.get ⟨j', hj'⟩ = true := by
        rw [← ht, List.get_cons_succ]
      have hafter' : ∀ i (hi : i < bs.length), j' < i → bs.get ⟨i, hi⟩ = false := by
        intro i hi hji
        have := hafter (i + 1) (by simpa using Nat.succ_lt_succ hi)
          (Nat.succ_lt_succ hji)
        rwa [List.get_cons_succ] at this
      have := ih j' hj' ht' hafter'
      simp [lastTrueIdx, this]

/-! ## Claim theorems -/

/-- C5: `safe_add` and `safe_remove` are idempotent for every list of
labels and every string, with no precondition on the list being sorted
or duplicate-free. -/
theorem c5_add_remove_idempotent (L : List String) (x : String) :
    safe_add (safe_add L x) x = safe_add L x ∧
    safe_remove (safe_remove L x) x = safe_remove L x := by
  exact ⟨safe_add_eq_of_mem (mem_safe_add.mpr (Or.inr rfl)), safe_remove_idem L x⟩

/-- C6: `safe_add` returns the list unchanged when the new label is
already present, and otherwise returns the (lexicographically) sorted
list whose elements are those of the input plus the new label; adding
the empty string is permitted; and `safe_add ["cat","dog"] "bird"`
evaluates to `["bird","cat","dog"]`. -/
theorem c6_add_spec (L : List String) (newLab : String) :
    (newLab ∈ L → safe_add L newLab = L) ∧
    (newLab ∉ L → List.Sorted (· ≤ ·) (safe_add L newLab) ∧
      (safe_add L newLab).Perm (L ++ [newLab])) ∧
    "" ∈ safe_add L "" ∧
    safe_add ["cat", "dog"] "bird" = ["bird", "cat", "dog"] := by
  refine ⟨fun h => safe_add_eq_of_mem h,
    fun h => ⟨sorted_le_safe_add_of_not_mem h, safe_add_perm h⟩,
    mem_safe_add.mpr (Or.inr rfl), ?_⟩
  simp only [safe_add, List.insertionSort, List.orderedInsert]
  norm_num [String.le_iff_toList_le, String.lt_iff_toList_lt]
  decide

/-- Witness for C6 at concrete inputs. -/
theorem c6_add_spec_w :
    safe_add ["cat"] "cat" = ["cat"] ∧
    List.Sorted (· ≤ ·) (safe_add ["cat", "dog"] "bird") :=
  ⟨(c6_add_spec ["cat"] "cat").1 (by decide),
   ((c6_add_spec ["cat", "dog"] "bird").2.1 (by decide)).1⟩

/-- C7: on a sorted duplicate-free list, `safe_substitute` returns a
sorted list that is a permutation of the input with every occurrence of
the old label replaced by the new one, and returns the list unchanged
(by value) when the old label is absent. -/
theorem c7_substitute_spec (L : List String) (oldLab newLab : String)
    (hs : List.Sorted (· < ·) L) :
    List.Sorted (· ≤ ·) (safe_substitute L oldLab newLab) ∧
    (safe_substitute L oldLab newLab).Perm (L.map (substFun oldLab newLab)) ∧
    (oldLab ∉ L → safe_substitute L oldLab newLab = L) := by
  refine ⟨sorted_le_safe_substitute L oldLab newLab,
    List.perm_insertionSort _ _,
    fun ho => safe_substitute_of_not_mem (hs.imp le_of_lt) ho⟩

/-- Witness for C7 at concrete inputs. -/
theorem c7_substitute_spec_w :
    List.Sorted (· ≤ ·) (safe_substitute ["ant", "cat"] "cat" "dog") ∧
    safe_substitute ["ant", "cat"] "fox" "dog" = ["ant", "cat"] := by
  have h : List.Sorted (· < ·) (["ant", "cat"] : List String) := by
    simp [List.Sorted, List.pairwise_cons, String.lt_iff_toList_lt]
    decide
  exact ⟨(c7_substitute_spec ["ant", "cat"] "cat" "dog" h).1,
    (c7_substitute_spec ["ant", "cat"] "fox" "dog" h).2.2 (by decide)⟩

/-- C1: for a label document whose entries `0..k` all have non-empty
label lists and whose entries beyond `k` are all empty, the labeler's
`get_start_index` returns `k + 1`; for an all-empty document it returns
0; and on the document `[["a.mp4",0,10,[]], ["a.mp4",10,20,["cat"]]]` it
returns 2. -/
theorem c1_labeler_resume_index (d : List LabelEntry) :
    (∀ k (hk : k < d.length),
      (∀ i (hi : i < d.length), i ≤ k → (d.get ⟨i, hi⟩).labels ≠ []) →
      (∀ i (hi : i < d.length), k < i → (d.get ⟨i, hi⟩).labels = []) →
      labelerGetStartIndex d = k + 1) ∧
    ((∀ e ∈ d, e.labels = []) → labelerGetStartIndex d = 0) ∧
    labelerGetStartIndex
      [⟨"a.mp4", 0, 10, []⟩, ⟨"a.mp4", 10, 20, ["cat"]⟩] = 2 := by
  refine ⟨?_, ?_, by decide⟩
  · intro k hk hle hgt
    have hsome :
        lastTrueIdx (d.map (fun e => decide (0 < e.labels.length))) = some k := by
      apply lastTrueIdx_eq_some _ k (by simpa using hk)
      · simp only [List.get_eq_getElem, List.getElem_map, decide_eq_true_eq,
          List.length_pos]
        have := hle k hk le_rfl
        simpa [List.get_eq_getElem] using this
      · intro i hi hki
        have hi' : i < d.length := by simpa using hi
        simp only [List.get_eq_getElem, List.getElem_map, decide_eq_false_iff_not,
          List.length_pos, not_not]
        have := hgt i hi' hki
        simpa [List.get_eq_getElem] using this
    simp [labelerGetStartIndex, hsome]
  · intro hall
    have hnone :
        lastTrueIdx (d.map (fun e => decide (0 < e.labels.length))) = none := by
      rw [lastTrueIdx_eq_none_iff]
      intro b hb
      obtain ⟨e, he, rfl⟩ := List.mem_map.mp hb
      simp [hall e he]
    simp [labelerGetStartIndex, hnone]

/-- Witness for C1 at a concrete document: entry 0 labeled, entry 1
empty, resume index 1. -/
theorem c1_labeler_resume_index_w :
    labelerGetStartIndex [⟨"a.mp4", 0, 10, ["cat"]⟩, ⟨"a.mp4", 10, 20, []⟩] = 1 := by
  have h1 : ∀ i (hi : i < 2), i ≤ 0 →
      (([⟨"a.mp4", 0, 10, ["cat"]⟩, ⟨"a.mp4", 10, 20, []⟩] :
        List LabelEntry).get ⟨i, hi⟩).labels ≠ [] := by decide
  have h2 : ∀ i (hi : i < 2), 0 < i →
      (([⟨"a.mp4", 0, 10, ["cat"]⟩, ⟨"a.mp4", 10, 20, []⟩] :
        List LabelEntry).get ⟨i, hi⟩).labels = [] := by decide
  exact (c1_labeler_resume_index _).1 0 (by norm_num)
    (fun i hi h => h1 i (by simpa using hi) h)
    (fun i hi h => h2 i (by simpa using hi) h)

/-- C8: for a non-empty match document the matcher's `get_start_index`
returns 0 when no entry carries any similar/dissimilar classification,
and otherwise the index just after the last classified entry, clamped to
the last valid index. -/
theorem c8_matcher_resume_index (d : List MatchEntry) (hne : d ≠ []) :
    ((∀ e ∈ d, e.similar = [] ∧ e.dissimilar = []) →
      matcherGetStartIndex d = 0) ∧
    (∀ j (hj : j < d.length),
      ((d.get ⟨j, hj⟩).similar ≠ [] ∨ (d.get ⟨j, hj⟩).dissimilar ≠ []) →
      (∀ i (hi : i < d.length), j < i →
        (d.get ⟨i, hi⟩).similar = [] ∧ (d.get ⟨i, hi⟩).dissimilar = []) →
      matcherGetStartIndex d = min (j + 1) (d.length - 1)) := by
  constructor
  · intro hall
    have hnone : lastTrueIdx
        (d.map (fun e => decide (0 < e.dissimilar.length + e.similar.length))) =
        none := by
      rw [lastTrueIdx_eq_none_iff]
      intro b hb
      obtain ⟨e, he, rfl⟩ := List.mem_map.mp hb
      simp [(hall e he).1, (hall e he).2]
    simp only [matcherGetStartIndex, hnone]
  · intro j hj hcls hafter
    have hsome : lastTrueIdx
        (d.map (fun e => decide (0 < e.dissimilar.length + e.similar.length))) =
        some j := by
      apply lastTrueIdx_eq_some _ j (by simpa using hj)
      · simp only [List.get_eq_getElem, List.getElem_map, decide_eq_true_eq]
        rcases hcls with h | h
        · have := List.length_pos.mpr h
          simp only [List.get_eq_getElem] at this
          omega
        · have := List.length_pos.mpr h
          simp only [List.get_eq_getElem] at this
          omega
      · intro i hi hji
        have hi' : i < d.length := by simpa using hi
        have h := hafter i hi' hji
        simp only [List.get_eq_getElem] at h
        simp [List.get_eq_getElem, h.1, h.2]
    simp only [matcherGetStartIndex, hsome]

/-- Witness for C8 at a concrete document: entry 0 classified, entry 1
not, result min 1 1 = 1. -/
theorem c8_matcher_resume_index_w :
    matcherGetStartIndex
      [⟨⟨"q.mp4", 0, 10⟩, [⟨"t.mp4", 0, 10⟩], [], [0], []⟩,
       ⟨⟨"q.mp4", 10, 20⟩, [⟨"t.mp4", 10, 20⟩], [], [], []⟩] = min 1 1 := by
  have h2 : ∀ i (hi : i < 2), 0 < i →
      (([⟨⟨"q.mp4", 0, 10⟩, [⟨"t.mp4", 0, 10⟩], [], [0], []⟩,
         ⟨⟨"q.mp4", 10, 20⟩, [⟨"t.mp4", 10, 20⟩], [], [], []⟩] :
        List MatchEntry).get ⟨i, hi⟩).similar = [] ∧
      (([⟨⟨"q.mp4", 0, 10⟩, [⟨"t.mp4", 0, 10⟩], [], [0], []⟩,
         ⟨⟨"q.mp4", 10, 20⟩, [⟨"t.mp4", 10, 20⟩], [], [], []⟩] :
        List MatchEntry).get ⟨i, hi⟩).dissimilar = [] := by decide
  exact (c8_matcher_resume_index _ (by decide)).2 0 (by norm_num)
    (by left; decide)
    (fun i hi h => h2 i (by simpa using hi) h)

/-- C9: the two label-document resume-index implementations diverge. On
the document whose only labeled entry sits at index 0, the module-level
`main.get_start_index` returns 0 (its `any(is_annotated)` tests Python
truthiness of the index list `[0]`, which is falsy), while the
superseding `labeler.MainWindow.get_start_index` returns 1, as the
docstring of both ("the index that follows the last labeled clip")
requires. -/
theorem c9_start_index_divergence :
    mainGetStartIndex [⟨"a.mp4", 0, 10, ["cat"]⟩, ⟨"a.mp4", 10, 20, []⟩] = 0 ∧
    labelerGetStartIndex [⟨"a.mp4", 0, 10, ["cat"]⟩, ⟨"a.mp4", 10, 20, []⟩] = 1 := by
  decide

/-- C10: for a non-empty label document whose last entry is labeled, the
labeler's `get_start_index` returns the document length — one past the
last valid index, so indexing the annotations list with it is out of
range — whereas the matcher variant clamps the analogous result to the
last valid index. -/
theorem c10_labeler_resume_overflow (d : List LabelEntry) (m : List MatchEntry)
    (hd : d ≠ []) (hm : m ≠ [])
    (hdl : (d.getLast hd).labels ≠ [])
    (hml : (m.getLast hm).similar ≠ [] ∨ (m.getLast hm).dissimilar ≠ []) :
    labelerGetStartIndex d = d.length ∧
    d.get? (labelerGetStartIndex d) = none ∧
    matcherGetStartIndex m = m.length - 1 ∧
    m.get? (matcherGetStartIndex m) ≠ none := by
  have hdpos : 0 < d.length := List.length_pos.mpr hd
  have hmpos : 0 < m.length := List.length_pos.mpr hm
  have hsome :
      lastTrueIdx (d.map (fun e => decide (0 < e.labels.length))) =
      some (d.length - 1) := by
    apply lastTrueIdx_eq_some _ _ (by simpa using Nat.sub_lt hdpos one_pos)
    · simp only [List.get_eq_getElem, List.getElem_map, decide_eq_true_eq,
        List.length_pos]
      rw [List.getLast_eq_getElem] at hdl
      simpa using hdl
    · intro i hi hlt
      have : i < d.length := by simpa using hi
      omega
  have hlab : labelerGetStartIndex d = d.length := by
    simp only [labelerGetStartIndex, hsome]
    omega
  have hmsome :
      lastTrueIdx (m.map (fun e => decide (0 < e.dissimilar.length + e.similar.length))) =
      some (m.length - 1) := by
    apply lastTrueIdx_eq_some _ _ (by simpa using Nat.sub_lt hmpos one_pos)
    · simp only [List.get_eq_getElem, List.getElem_map, decide_eq_true_eq]
      rw [List.getLast_eq_getElem] at hml
      rcases hml with h | h
      · have := List.length_pos.mpr h
        omega
      · have := List.length_pos.mpr h
        omega
    · intro i hi hlt
      have : i < m.length := by simpa using hi
      omega
  have hmat : matcherGetStartIndex m = m.length - 1 := by
    simp only [matcherGetStartIndex, hmsome]
    omega
  refine ⟨hlab, ?_, hmat, ?_⟩
  · rw [hlab]
    exact List.get?_eq_none.mpr le_rfl
  · rw [hmat]
    intro hcon
    have := List.get?_eq_none.mp hcon
    omega

/-- Witness for C10 at concrete documents of length 1 whose single entry
is labeled resp. classified. -/
theorem c10_labeler_resume_overflow_w :
    labelerGetStartIndex [⟨"a.mp4", 0, 10, ["cat"]⟩] = 1 ∧
    ([⟨"a.mp4", 0, 10, ["cat"]⟩] : List LabelEntry).get?
      (labelerGetStartIndex [⟨"a.mp4", 0, 10, ["cat"]⟩]) = none ∧
    matcherGetStartIndex [⟨⟨"q.mp4", 0, 10⟩, [], [], [0], []⟩] = 0 ∧
    ([⟨⟨"q.mp4", 0, 10⟩, [], [], [0], []⟩] : List MatchEntry).get?
      (matcherGetStartIndex [⟨⟨"q.mp4", 0, 10⟩, [], [], [0], []⟩]) ≠ none := by
  have := c10_labeler_resume_overflow
    [⟨"a.mp4", 0, 10, ["cat"]⟩] [⟨⟨"q.mp4", 0, 10⟩, [], [], [0], []⟩]
    (by decide) (by decide) (by decide) (by left; decide)
  simpa using this

/-- C2: starting from a match entry whose similar and dissimilar sets are
disjoint, any single `classify_target_video` call (left or right click,
any target index) leaves them disjoint; classifying a target currently
in `dissimilar` as similar moves it into `similar` and out of
`dissimilar` in the same operation; and on the entry with
`similar = {}`, `dissimilar = {2}`, classifying target 2 as similar
yields `similar = {2}`, `dissimilar = {}`. -/
theorem c2_classify_mutual_exclusion (e : MatchEntry) (lc : Bool) (t : Nat)
    (hdisj : ∀ x, x ∈ e.similar → x ∉ e.dissimilar) :
    (∀ x, x ∈ (classify_target_video e lc t).similar →
      x ∉ (classify_target_video e lc t).dissimilar) ∧
    (lc = true → t ∈ e.dissimilar →
      t ∈ (classify_target_video e lc t).similar ∧
      t ∉ (classify_target_video e lc t).dissimilar) ∧
    ((classify_target_video ⟨⟨"q.mp4", 0, 10⟩, [], [], [], [2]⟩ true 2).similar
        = [2] ∧
     (classify_target_video ⟨⟨"q.mp4", 0, 10⟩, [], [], [], [2]⟩ true 2).dissimilar
        = []) := by
  refine ⟨?_, ?_, by decide, by decide⟩
  · intro x hxs hxd
    cases lc with
    | true =>
      by_cases hts : t ∈ e.similar
      · rw [show classify_target_video e true t =
            { e with similar := safe_remove e.similar t } from by
              simp [classify_target_video, hts]] at hxs hxd
        exact hdisj x (mem_safe_remove.mp hxs).1 hxd
      · rw [show classify_target_video e true t =
            { e with similar := safe_add e.similar t,
                     dissimilar := safe_remove e.dissimilar t } from by
              simp [classify_target_video, hts]] at hxs hxd
        rcases mem_safe_add.mp hxs with h | rfl
        · exact hdisj x h (mem_safe_remove.mp hxd).1
        · exact (mem_safe_remove.mp hxd).2 rfl
    | false =>
      by_cases htd : t ∈ e.dissimilar
      · rw [show classify_target_video e false t =
            { e with dissimilar := safe_remove e.dissimilar t } from by
              simp [classify_target_video, htd]] at hxs hxd
        exact hdisj x hxs (mem_safe_remove.mp hxd).1
      · rw [show classify_target_video e false t =
            { e with dissimilar := safe_add e.dissimilar t,
                     similar := safe_remove e.similar t } from by
              simp [classify_target_video, htd]] at hxs hxd
        rcases mem_safe_add.mp hxd with h | rfl
        · exact hdisj x (mem_safe_remove.mp hxs).1 h
        · exact (mem_safe_remove.mp hxs).2 rfl
  · rintro rfl htd
    have hts : t ∉ e.similar := fun h => hdisj t h htd
    rw [show classify_target_video e true t =
        { e with similar := safe_add e.similar t,
                 dissimilar := safe_remove e.dissimilar t } from by
          simp [classify_target_video, hts]]
    refine ⟨mem_safe_add.mpr (Or.inr rfl), fun h => ?_⟩
    exact (mem_safe_remove.mp h).2 rfl

/-- Witness for C2 at the concrete entry of Scenario C. -/
theorem c2_classify_mutual_exclusion_w :
    2 ∈ (classify_target_video ⟨⟨"q.mp4", 0, 10⟩, [], [], [], [2]⟩ true 2).similar ∧
    2 ∉ (classify_target_video ⟨⟨"q.mp4", 0, 10⟩, [], [], [], [2]⟩ true 2).dissimilar :=
  (c2_classify_mutual_exclusion ⟨⟨"q.mp4", 0, 10⟩, [], [], [], [2]⟩ true 2
    (by simp)).2.1 rfl (by decide)

/-- Characterization of the aggregated missing-path list built by the
two loaders. -/
theorem missing_filter_spec (paths : List String) (ex : String → Bool) :
    (paths.dedup.filter (fun p => !(ex p)) = [] ↔ ∀ p ∈ paths, ex p = true) ∧
    ∀ p, p ∈ paths.dedup.filter (fun p => !(ex p)) ↔ (p ∈ paths ∧ ex p = false) := by
  constructor
  · rw [List.filter_eq_nil_iff]
    constructor
    · intro h p hp
      have := h p (List.mem_dedup.mpr hp)
      simpa using this
    · intro h p hp
      simp [h p (List.mem_dedup.mp hp)]
  · intro p
    rw [List.mem_filter, List.mem_dedup]
    simp

/-- C4: loading fails exactly when some referenced video path does not
exist, and the surfaced error lists precisely the missing paths (all of
them); when every referenced path exists, the parsed document is
returned unchanged. Stated for both the labeler and the matcher loader,
with the filesystem abstracted as the predicate `ex`. -/
theorem c4_load_missing_paths (d : List LabelEntry) (m : List MatchEntry)
    (ex : String → Bool) :
    ((∀ e ∈ d, ex e.path = true) → labeler_load d ex = Except.ok d) ∧
    ((∃ e ∈ d, ex e.path = false) →
      ∃ missing, labeler_load d ex = Except.error missing ∧
        ∀ p, p ∈ missing ↔ ((∃ e ∈ d, e.path = p) ∧ ex p = false)) ∧
    ((∀ p ∈ matcherRefPaths m, ex p = true) → matcher_load m ex = Except.ok m) ∧
    ((∃ p ∈ matcherRefPaths m, ex p = false) →
      ∃ missing, matcher_load m ex = Except.error missing ∧
        ∀ p, p ∈ missing ↔ (p ∈ matcherRefPaths m ∧ ex p = false)) := by
  have hl := missing_filter_spec (d.map (fun e => e.path)) ex
  have hmm := missing_filter_spec (matcherRefPaths m) ex
  refine ⟨?_, ?_, ?_, ?_⟩
  · intro hall
    have : (d.map (fun e => e.path)).dedup.filter (fun p => !(ex p)) = [] := by
      rw [hl.1]
      intro p hp
      obtain ⟨e, he, rfl⟩ := List.mem_map.mp hp
      exact hall e he
    show (if _ = _ then _ else _) = _
    rw [if_pos this]
  · rintro ⟨e, he, hex⟩
    have hne : ¬ (d.map (fun e => e.path)).dedup.filter (fun p => !(ex p)) = [] := by
      intro hcon
      have := hl.1.mp hcon e.path (List.mem_map.mpr ⟨e, he, rfl⟩)
      rw [this] at hex
      simp at hex
    refine ⟨(d.map (fun e => e.path)).dedup.filter (fun p => !(ex p)), ?_, ?_⟩
    · show (if _ = _ then _ else _) = _
      rw [if_neg hne]
    · intro p
      rw [hl.2 p, List.mem_map]
  · intro hall
    have : (matcherRefPaths m).dedup.filter (fun p => !(ex p)) = [] :=
      hmm.1.mpr hall
    show (if _ = _ then _ else _) = _
    rw [if_pos this]
  · rintro ⟨p, hp, hex⟩
    have hne : ¬ (matcherRefPaths m).dedup.filter (fun p => !(ex p)) = [] := by
      intro hcon
      have := hmm.1.mp hcon p hp
      rw [this] at hex
      simp at hex
    refine ⟨(matcherRefPaths m).dedup.filter (fun p => !(ex p)), ?_, fun p => hmm.2 p⟩
    show (if _ = _ then _ else _) = _
    rw [if_neg hne]

/-- Witness for C4 at concrete documents: every referenced path exists
under one filesystem predicate, and a missing path makes the load fail
under another. -/
theorem c4_load_missing_paths_w :
    labeler_load [⟨"v.mp4", 0, 1, []⟩] (fun p => p == "v.mp4") =
      Except.ok [⟨"v.mp4", 0, 1, []⟩] ∧
    ∃ missing,
      labeler_load [⟨"v.mp4", 0, 1, []⟩] (fun _ => false) = Except.error missing ∧
      ∀ p, p ∈ missing ↔
        ((∃ e ∈ ([⟨"v.mp4", 0, 1, []⟩] : List LabelEntry), e.path = p) ∧
          (fun _ => false) p = false) := by
  constructor
  · exact (c4_load_missing_paths [⟨"v.mp4", 0, 1, []⟩] [] (fun p => p == "v.mp4")).1
      (by decide)
  · exact (c4_load_missing_paths [⟨"v.mp4", 0, 1, []⟩] [] (fun _ => false)).2.1
      ⟨⟨"v.mp4", 0, 1, []⟩, by decide, rfl⟩

theorem docSorted_updAt {d : List LabelEntry} {f : List String → List String}
    (hf : ∀ L, List.Sorted (· < ·) L → List.Sorted (· < ·) (f L))
    (hd : docSorted d) : ∀ i, docSorted (updAt d i f) := by
  intro i
  induction d generalizing i with
  | nil =>
    intro x hx
    simp [updAt] at hx
  | cons e es ih =>
    cases i with
    | zero =>
      intro x hx
      rcases List.mem_cons.mp hx with rfl | hx
      · exact hf e.labels (hd e (List.mem_cons_self e es))
      · exact hd x (List.mem_cons_of_mem e hx)
    | succ i' =>
      intro x hx
      rcases List.mem_cons.mp hx with rfl | hx
      · exact hd x (List.mem_cons_self x es)
      · exact ih (fun y hy => hd y (List.mem_cons_of_mem e hy)) i' x hx

/-- Counterexample to C3 as stated: the document `[["a.mp4",0,10,
["a","b"]]]` satisfies the sort invariant, yet renaming "a" to "b"
everywhere (the `edit_label` operation, via `safe_substitute`) yields
the label list `["b","b"]`, which has a duplicate and so is not strictly
sorted. -/
theorem c3_sort_invariant_cex :
    docSorted [⟨"a.mp4", 0, 10, ["a", "b"]⟩] ∧
    doc_edit [⟨"a.mp4", 0, 10, ["a", "b"]⟩] "a" "b" =
      [⟨"a.mp4", 0, 10, ["b", "b"]⟩] ∧
    ¬ docSorted (doc_edit [⟨"a.mp4", 0, 10, ["a", "b"]⟩] "a" "b") := by
  have hsub : safe_substitute ["a", "b"] "a" "b" = ["b", "b"] := by
    simp only [safe_substitute, substFun, List.map, List.insertionSort,
      List.orderedInsert]
    norm_num [String.le_iff_toList_le, String.lt_iff_toList_lt]
  have hdoc : doc_edit [⟨"a.mp4", 0, 10, ["a", "b"]⟩] "a" "b" =
      [⟨"a.mp4", 0, 10, ["b", "b"]⟩] := by
    simp [doc_edit, hsub]
  refine ⟨?_, hdoc, ?_⟩
  · intro e he
    rw [List.mem_singleton] at he
    subst he
    simp [List.Sorted, List.pairwise_cons, String.lt_iff_toList_lt]
    decide
  · rw [hdoc]
    intro hcon
    have := hcon ⟨"a.mp4", 0, 10, ["b", "b"]⟩ (List.mem_singleton.mpr rfl)
    have hbb : ("b" : String) < "b" :=
      (List.pairwise_cons.mp this).1 "b" (List.mem_singleton.mpr rfl)
    exact lt_irrefl _ hbb

/-- C3 amended: starting from a document whose label lists are strictly
sorted with no duplicates, per-clip add and remove and document-wide
delete preserve the invariant unconditionally, and document-wide rename
(`edit_label` via `safe_substitute`) preserves it for every choice of
old and new label such that no entry both contains the old label and
already contains the (different) new label — the side condition forced
by the rename-collision counterexample. -/
theorem c3_sort_invariant_amended (d : List LabelEntry) (i : Nat)
    (lab oldLab newLab : String) (hd : docSorted d)
    (hc : ∀ e ∈ d, oldLab ∉ e.labels ∨ oldLab = newLab ∨ newLab ∉ e.labels) :
    docSorted (doc_add d i lab) ∧ docSorted (doc_remove d i lab) ∧
    docSorted (doc_delete d lab) ∧ docSorted (doc_edit d oldLab newLab) := by
  refine ⟨docSorted_updAt (fun L hL => sorted_lt_safe_add hL) hd i,
    docSorted_updAt (fun L hL => sorted_lt_safe_remove hL) hd i, ?_, ?_⟩
  · intro x hx
    obtain ⟨e, he, rfl⟩ := List.mem_map.mp hx
    exact sorted_lt_safe_remove (hd e he)
  · intro x hx
    obtain ⟨e, he, rfl⟩ := List.mem_map.mp hx
    exact sorted_lt_safe_substitute (hd e he) (hc e he)

/-- Witness for C3 (amended) at a concrete document. -/
theorem c3_sort_invariant_amended_w :
    docSorted (doc_add [⟨"a.mp4", 0, 10, ["a"]⟩] 0 "b") ∧
    docSorted (doc_remove [⟨"a.mp4", 0, 10, ["a"]⟩] 0 "b") ∧
    docSorted (doc_delete [⟨"a.mp4", 0, 10, ["a"]⟩] "b") ∧
    docSorted (doc_edit [⟨"a.mp4", 0, 10, ["a"]⟩] "a" "c") :=
  c3_sort_invariant_amended [⟨"a.mp4", 0, 10, ["a"]⟩] 0 "b" "a" "c"
    (by simp [docSorted]) (by decide)

end ClipAnnotator
